import Mathlib

/-!
Shallow embedding of the pio-uart-9bit driver (src/src/lib.rs).

Bytes (`u8`) and FIFO words (`u32`) are modelled as `Nat` with explicit
`% 2^w` wherever the source's machine-integer types matter.  A FIFO is a
`List Nat` of queued words, front = next word popped.  The busy-wait on a
full transmit FIFO is modelled by an unbounded FIFO list (the spin always
eventually succeeds and pushes), and the non-arrival of further receive
words is modelled by a fixed receive FIFO list together with a fuel
parameter bounding the number of outer-loop iterations.
-/

namespace PioUart

/-- Models `(b >> 24) as u8`: the top 8 bits of a received 32-bit FIFO word
(src/src/lib.rs line 389). -/
def rxByte (w : Nat) : Nat := w / 2 ^ 24 % 256

/-- Models `u16::from_le_bytes([buf[(n*2)+1], buf[n*2]&0x01]) as u32`
(src/src/lib.rs line 430): the first (little-endian low) byte is the
odd-indexed buffer byte, the second (high) byte is the even-indexed
buffer byte masked to its lowest bit.  `b0` is `buf[n*2]`, `b1` is
`buf[n*2+1]`. -/
def txWord (b0 b1 : Nat) : Nat := b1 % 256 + 256 * (b0 % 2)

/-- The `for n in 0..buf.len()/2` loop of `PioUartTx::write_raw`
(src/src/lib.rs lines 426-431): at index `n`, spin until the transmit
FIFO has room, then push `txWord buf[2n] buf[2n+1]`; the FIFO is the
list of words pushed so far. -/
def write_raw_go (buf : List Nat) (n : Nat) (fifo : List Nat) : List Nat :=
  if n < buf.length / 2 then
    write_raw_go buf (n + 1) (fifo ++ [txWord (buf.getD (2 * n) 0) (buf.getD (2 * n + 1) 0)])
  else fifo
termination_by buf.length / 2 - n

/-- Models `PioUartTx::write_raw` (src/src/lib.rs lines 424-433): runs the push
loop from index 0 and returns the new FIFO contents together with the
function's result, which is always `Ok(())`. -/
def write_raw (buf fifo : List Nat) : List Nat × Except Unit Unit :=
  (write_raw_go buf 0 fifo, Except.ok ())

/-- Models `PioSerialError` (src/src/lib.rs lines 460-463): the single-variant
error enum; `ioError` models the source's general-IO variant. -/
inductive PioSerialError
  | ioError
deriving DecidableEq

/-- Models `embedded_io::Write::write for PioUartTx` (src/src/lib.rs lines
495-499): delegates to `write_raw`, maps `Ok(())` to `Ok(buf.len())`
and `Err(())` to the IO error. -/
def ew_write (buf fifo : List Nat) : List Nat × Except PioSerialError Nat :=
  match write_raw buf fifo with
  | (fifo2, Except.ok _) => (fifo2, Except.ok buf.length)
  | (fifo2, Except.error _) => (fifo2, Except.error PioSerialError.ioError)

/-- Models `let div = system_freq.to_Hz() as f32 / (8f32 * baud.to_Hz() as f32)`
(src/src/lib.rs line 149 in `PioUartRx::new` and line 231 in
`PioUartTx::new`), with the `f32` arithmetic modelled exactly over the
rationals (the source's operands are `u32` frequencies in Hz). -/
def clock_divisor (baud system_freq : Nat) : ℚ :=
  (system_freq : ℚ) / (8 * (baud : ℚ))

/-- The two typestate phases: `pio::Stopped` (the spec's "Configured")
and `pio::Running` (src/src/lib.rs type parameter `State`). -/
inductive LifecycleState
  | stopped
  | running
deriving DecidableEq

/-- The methods of `PioUartRx`. -/
inductive RxMethod
  | new
  | enable
  | free
  | readRaw
  | stop
deriving DecidableEq

/-- The methods of `PioUartTx`. -/
inductive TxMethod
  | new
  | enable
  | free
  | writeRaw
  | flush
  | stop
deriving DecidableEq

/-- Which `PioUartRx` methods each impl block provides:
`impl PioUartRx<.., pio::Stopped>` (src/src/lib.rs lines 132-212)
defines `new`, `enable` and `free`; `impl PioUartRx<.., pio::Running>`
(lines 369-414) defines `read_raw` and `stop`. -/
def rx_methods : LifecycleState → RxMethod → Bool
  | .stopped, .new => true
  | .stopped, .enable => true
  | .stopped, .free => true
  | .stopped, .readRaw => false
  | .stopped, .stop => false
  | .running, .new => false
  | .running, .enable => false
  | .running, .free => false
  | .running, .readRaw => true
  | .running, .stop => true

/-- Which `PioUartTx` methods each impl block provides:
`impl PioUartTx<.., pio::Stopped>` (src/src/lib.rs lines 214-294)
defines `new`, `enable` and `free`; `impl PioUartTx<.., pio::Running>`
(lines 415-455) defines `write_raw`, `flush` and `stop`. -/
def tx_methods : LifecycleState → TxMethod → Bool
  | .stopped, .new => true
  | .stopped, .enable => true
  | .stopped, .free => true
  | .stopped, .writeRaw => false
  | .stopped, .flush => false
  | .stopped, .stop => false
  | .running, .new => false
  | .running, .enable => false
  | .running, .free => false
  | .running, .writeRaw => true
  | .running, .flush => true
  | .running, .stop => true

/-- Closed form of the transmit push loop: starting at index `n` it
appends one `txWord` per remaining index. -/
theorem write_raw_go_eq (k : Nat) : ∀ (buf : List Nat) (n : Nat) (fifo : List Nat),
    buf.length / 2 - n = k →
    write_raw_go buf n fifo =
      fifo ++ (List.range k).map
        (fun i => txWord (buf.getD (2 * (n + i)) 0) (buf.getD (2 * (n + i) + 1) 0)) := by
  induction k with
  | zero =>
    intro buf n fifo h
    rw [write_raw_go]
    have hn : ¬ n < buf.length / 2 := by omega
    simp [hn]
  | succ k ih =>
    intro buf n fifo h
    rw [write_raw_go]
    have hn : n < buf.length / 2 := by omega
    simp only [hn, if_true]
    rw [ih buf (n + 1) _ (by omega), List.range_succ_eq_map, List.map_cons, List.map_map]
    have hfun : (fun i => txWord (buf.getD (2 * (n + 1 + i)) 0) (buf.getD (2 * (n + 1 + i) + 1) 0))
        = ((fun i => txWord (buf.getD (2 * (n + i)) 0) (buf.getD (2 * (n + i) + 1) 0)) ∘ Nat.succ) := by
      funext i
      simp only [Function.comp_apply]
      congr 2 <;> omega
    rw [hfun]
    simp

theorem write_raw_eq (buf fifo : List Nat) :
    (write_raw buf fifo).1 =
      fifo ++ (List.range (buf.length / 2)).map
        (fun k => txWord (buf.getD (2 * k) 0) (buf.getD (2 * k + 1) 0)) := by
  unfold write_raw
  rw [write_raw_go_eq (buf.length / 2) buf 0 fifo (by omega)]
  simp

/-- The inner `while let Some(b) = self.rx.read()` loop of
`PioUartRx::read_raw` (src/src/lib.rs lines 388-394): pop words from the
receive FIFO, writing each word's top byte at position `pos` of the
destination buffer, until the buffer is full (`break 'outer`, flag
`true`) or the FIFO is empty (flag `false`).  Returns the remaining
FIFO, the updated buffer, the new write position and the break flag. -/
def read_drain : List Nat → List Nat → Nat → List Nat × List Nat × Nat × Bool
  | [], buf, pos => ([], buf, pos, false)
  | w :: rest, buf, pos =>
    let buf2 := buf.set pos (rxByte w)
    if pos + 1 = buf.length then (rest, buf2, pos + 1, true)
    else read_drain rest buf2 (pos + 1)

/-- The outer `'outer: loop` of `PioUartRx::read_raw` (src/src/lib.rs
lines 387-398): drain the FIFO; stop if the buffer filled, or if the
byte count written so far is even; otherwise iterate again waiting for
more data.  `fuel` bounds the number of outer iterations; `none` means
the fuel ran out with the loop still spinning. -/
def read_loop : Nat → List Nat → List Nat → Nat → Option (List Nat × List Nat × Nat)
  | 0, _, _, _ => none
  | fuel + 1, fifo, buf, pos =>
    match read_drain fifo buf pos with
    | (fifo2, buf2, pos2, true) => some (fifo2, buf2, pos2)
    | (fifo2, buf2, pos2, false) =>
      if pos2 % 2 = 0 then some (fifo2, buf2, pos2)
      else read_loop fuel fifo2 buf2 pos2

/-- Models `PioUartRx::read_raw` (src/src/lib.rs lines 378-400): fail with
`Err(())` when the buffer holds fewer than 2 bytes, otherwise run the
outer loop from position 0 and return `Ok(bytes written)` together with
the final FIFO and buffer state.  `none` means the outer loop was still
spinning after `fuel` iterations. -/
def read_raw (fuel : Nat) (fifo buf : List Nat) :
    Option (Except Unit Nat × List Nat × List Nat) :=
  if buf.length < 2 then some (Except.error (), fifo, buf)
  else
    match read_loop fuel fifo buf 0 with
    | some (fifo2, buf2, pos) => some (Except.ok pos, fifo2, buf2)
    | none => none

/-- When the FIFO holds fewer words than the buffer has room left, the
inner loop drains it completely: one byte (`rxByte`) per word, written
in order starting at `pos`, and reports no break. -/
theorem read_drain_all : ∀ (fifo buf : List Nat) (pos : Nat),
    fifo.length < buf.length - pos →
    read_drain fifo buf pos =
      ([], buf.take pos ++ fifo.map rxByte ++ buf.drop (pos + fifo.length),
       pos + fifo.length, false) := by
  intro fifo
  induction fifo with
  | nil =>
    intro buf pos _
    simp [read_drain, List.take_append_drop]
  | cons w rest ih =>
    intro buf pos h
    have hpos : pos < buf.length := by simp at h; omega
    have hne : ¬ pos + 1 = buf.length := by simp at h; omega
    rw [read_drain]
    simp only [hne, if_false]
    rw [ih (buf.set pos (rxByte w)) (pos + 1) (by simp at h ⊢; omega)]
    have h1 : (buf.take pos).length = pos := by
      simp [List.length_take, Nat.min_eq_left (Nat.le_of_lt hpos)]
    have hset : buf.set pos (rxByte w) = buf.take pos ++ rxByte w :: buf.drop (pos + 1) :=
      List.set_eq_take_cons_drop _ hpos
    have hbuf : (buf.set pos (rxByte w)).take (pos + 1) = buf.take pos ++ [rxByte w] := by
      rw [hset, List.take_append_eq_append_take, List.take_take, h1,
          Nat.min_eq_right (Nat.le_succ pos)]
      have h2 : pos + 1 - pos = 1 := by omega
      rw [h2]
      simp
    have hdrop : (buf.set pos (rxByte w)).drop (pos + 1 + rest.length)
        = buf.drop (pos + 1 + rest.length) := by
      rw [hset, List.drop_append_eq_append_drop, h1]
      have h4 : pos + 1 + rest.length - pos = rest.length + 1 := by omega
      rw [h4]
      have h5 : (buf.take pos).drop (pos + 1 + rest.length) = [] := by
        apply List.drop_eq_nil_of_le
        rw [h1]; omega
      rw [h5, List.nil_append, List.drop_succ_cons, List.drop_drop]
    rw [hbuf, hdrop]
    have hlen : pos + 1 + rest.length = pos + (w :: rest).length := by simp; omega
    rw [hlen]
    simp [List.append_assoc]

/-- When the FIFO holds at least as many words as the buffer has room
left, the inner loop fills the buffer exactly and breaks out of the
outer loop with the surplus words still queued. -/
theorem read_drain_fill : ∀ (fifo buf : List Nat) (pos : Nat),
    pos < buf.length → buf.length - pos ≤ fifo.length →
    read_drain fifo buf pos =
      (fifo.drop (buf.length - pos),
       buf.take pos ++ (fifo.take (buf.length - pos)).map rxByte,
       buf.length, true) := by
  intro fifo
  induction fifo with
  | nil =>
    intro buf pos hpos h
    simp at h
    omega
  | cons w rest ih =>
    intro buf pos hpos h
    have h1 : (buf.take pos).length = pos := by
      simp [List.length_take, Nat.min_eq_left (Nat.le_of_lt hpos)]
    have hset : buf.set pos (rxByte w) = buf.take pos ++ rxByte w :: buf.drop (pos + 1) :=
      List.set_eq_take_cons_drop _ hpos
    rw [read_drain]
    by_cases hfull : pos + 1 = buf.length
    · simp only [hfull, if_true]
      have hd : buf.drop (pos + 1) = [] := by
        apply List.drop_eq_nil_of_le
        omega
      have hsub : buf.length - pos = 1 := by omega
      rw [hsub, hset, hd]
      simp [hfull]
    · simp only [hfull, if_false]
      have hlt : pos + 1 < buf.length := by omega
      rw [ih (buf.set pos (rxByte w)) (pos + 1) (by simp; omega) (by simp at h ⊢; omega)]
      have hbuf : (buf.set pos (rxByte w)).take (pos + 1) = buf.take pos ++ [rxByte w] := by
        rw [hset, List.take_append_eq_append_take, List.take_take, h1,
            Nat.min_eq_right (Nat.le_succ pos)]
        have h2 : pos + 1 - pos = 1 := by omega
        rw [h2]
        simp
      simp only [List.length_set]
      rw [hbuf]
      have hsub : buf.length - pos = (buf.length - (pos + 1)) + 1 := by omega
      rw [hsub, List.drop_succ_cons, List.take_succ_cons, List.map_cons]
      simp [List.append_assoc]

/-- With an empty FIFO, no further arrivals and an odd byte count, the
outer loop spins forever: every fuel bound is exhausted. -/
theorem read_loop_spin : ∀ (fuel : Nat) (buf : List Nat) (pos : Nat),
    pos % 2 = 1 → read_loop fuel [] buf pos = none := by
  intro fuel
  induction fuel with
  | zero => intro buf pos _; rfl
  | succ fuel ih =>
    intro buf pos hodd
    rw [read_loop]
    have hd : read_drain [] buf pos = ([], buf, pos, false) := rfl
    rw [hd]
    simp only
    have hne : ¬ pos % 2 = 0 := by omega
    simp only [hne, if_false]
    exact ih buf pos hodd

/-- Characterization of the outer loop from position 0 with a fixed
FIFO of `N` words: writing `m = min N buf.length`, it terminates with
`m` bytes written exactly when `m` is even or the buffer fills
(`buf.length ≤ N`); otherwise it spins for any fuel bound. -/
theorem read_loop_char (fuel : Nat) (fifo buf : List Nat) (h0 : 0 < buf.length) :
    read_loop (fuel + 1) fifo buf 0 =
      if min fifo.length buf.length % 2 = 0 ∨ buf.length ≤ fifo.length then
        some (fifo.drop (min fifo.length buf.length),
              (fifo.take (min fifo.length buf.length)).map rxByte
                ++ buf.drop (min fifo.length buf.length),
              min fifo.length buf.length)
      else none := by
  by_cases hbig : buf.length ≤ fifo.length
  · have hmin : min fifo.length buf.length = buf.length := Nat.min_eq_right hbig
    rw [read_loop, read_drain_fill fifo buf 0 h0 (by omega)]
    simp only [hmin, hbig, or_true, if_true]
    simp [List.drop_length]
  · have hlt : fifo.length < buf.length := by omega
    have hmin : min fifo.length buf.length = fifo.length := Nat.min_eq_left (Nat.le_of_lt hlt)
    rw [read_loop, read_drain_all fifo buf 0 (by omega)]
    simp only [hmin, Nat.zero_add, List.take_zero, List.nil_append,
               List.take_length, List.drop_length]
    by_cases heven : fifo.length % 2 = 0
    · rw [if_pos heven, if_pos (Or.inl heven)]
    · rw [if_neg heven]
      have hodd : fifo.length % 2 = 1 := by omega
      rw [read_loop_spin fuel _ _ hodd]
      have hcond : ¬ (fifo.length % 2 = 0 ∨ buf.length ≤ fifo.length) := by
        push_neg
        exact ⟨heven, hlt⟩
      rw [if_neg hcond]

/-- Characterization of `read_raw` on a buffer of length ≥ 2 with a
fixed FIFO of `N` words and positive fuel: with `m = min N buf.length`,
it returns `Ok m` having drained `m` words, each contributing its top
byte to the buffer front-to-back, exactly when `m` is even or the
buffer fills; otherwise it never returns. -/
theorem read_raw_char (fuel : Nat) (fifo buf : List Nat) (h2 : 2 ≤ buf.length) :
    read_raw (fuel + 1) fifo buf =
      if min fifo.length buf.length % 2 = 0 ∨ buf.length ≤ fifo.length then
        some (Except.ok (min fifo.length buf.length),
              fifo.drop (min fifo.length buf.length),
              (fifo.take (min fifo.length buf.length)).map rxByte
                ++ buf.drop (min fifo.length buf.length))
      else none := by
  have hn : ¬ buf.length < 2 := by omega
  rw [read_raw]
  simp only [hn, if_false]
  rw [read_loop_char fuel fifo buf (by omega)]
  by_cases hcond : min fifo.length buf.length % 2 = 0 ∨ buf.length ≤ fifo.length
  · simp only [hcond, if_true]
  · simp only [hcond, if_false]

/-- C1 (as stated, refuted): writing the two-byte buffer `[0x41, 0x00]`
pushes the single word `0x100`, not `(0x41 << 8) | (0x00 & 1) = 0x4100`
as the claim's assembly formula demands. -/
theorem claim_c1_counterexample :
    (write_raw [65, 0] []).1 = [256] ∧ (256 : Nat) ≠ 65 * 256 + (0 % 2) := by
  constructor
  · rw [write_raw_eq]
    decide
  · decide

/-- C1 (amended): for every input buffer, `write_raw` pushes exactly
`⌊buf.len()/2⌋` words onto the transmit FIFO (in order, after the words
already queued), and the k-th pushed word equals
`((b0 & 0x01) << 8) | b1` where `b0 = buf[2k]` (its low bit becomes the
auxiliary bit, word bit 8) and `b1 = buf[2k+1]` (the 8 data bits, word
bits 0-7). -/
theorem claim_c1 (buf fifo : List Nat) :
    (write_raw buf fifo).1 = fifo ++ (write_raw buf []).1 ∧
    (write_raw buf []).1.length = buf.length / 2 ∧
    ∀ k, k < buf.length / 2 →
      (write_raw buf []).1.getD k 0
        = 256 * (buf.getD (2 * k) 0 % 2) + buf.getD (2 * k + 1) 0 % 256 := by
  refine ⟨?_, ?_, ?_⟩
  · rw [write_raw_eq buf fifo, write_raw_eq buf []]
    simp
  · rw [write_raw_eq]
    simp
  · intro k hk
    rw [write_raw_eq]
    simp only [List.nil_append]
    have hlen : k < ((List.range (buf.length / 2)).map
        (fun j => txWord (buf.getD (2 * j) 0) (buf.getD (2 * j + 1) 0))).length := by
      simpa using hk
    rw [List.getD_eq_getElem _ _ hlen]
    simp only [List.getElem_map, List.getElem_range, txWord]
    omega

/-- C1 witness: instantiating the amended claim at `buf = [3, 7]`. -/
theorem claim_c1_witness :
    (write_raw [3, 7] []).1.getD 0 0
      = 256 * (List.getD [3, 7] (2 * 0) 0 % 2) + List.getD [3, 7] (2 * 0 + 1) 0 % 256 :=
  (claim_c1 [3, 7] []).2.2 0 (by decide)

/-- C9: every word `write_raw` pushes has all bits above bit 8 clear,
i.e. is strictly below 512, fitting the 9-bit frame. -/
theorem claim_c9 (buf : List Nat) (w : Nat) (hw : w ∈ (write_raw buf []).1) :
    w < 512 := by
  rw [write_raw_eq] at hw
  simp only [List.nil_append, List.mem_map, List.mem_range] at hw
  obtain ⟨i, _, rfl⟩ := hw
  unfold txWord
  omega

/-- C9 witness: the word pushed for the byte pair `(1, 255)` is 511,
which is below 512. -/
theorem claim_c9_witness : (511 : Nat) < 512 :=
  claim_c9 [1, 255] 511 (by rw [write_raw_eq]; decide)

/-- C8: the embedded-io write adapter always reports the full requested
buffer length as written, for every buffer and FIFO state. -/
theorem claim_c8 (buf fifo : List Nat) :
    (ew_write buf fifo).2 = Except.ok buf.length := rfl

/-- C5: a destination buffer with fewer than 2 bytes of capacity makes
`read_raw` fail immediately with the I/O error, leaving the FIFO and
the buffer untouched, for any fuel. -/
theorem claim_c5 (fuel : Nat) (fifo buf : List Nat) (h : buf.length < 2) :
    read_raw fuel fifo buf = some (Except.error (), fifo, buf) := by
  rw [read_raw, if_pos h]

/-- C5 witness: instantiating at the one-byte buffer `[0]` with FIFO
`[7]`. -/
theorem claim_c5_witness : read_raw 1 [7] [0] = some (Except.error (), [7], [0]) :=
  claim_c5 1 [7] [0] (by decide)

/-- C2 (as stated, refuted): with `N = 2` buffered words and a 10-byte
buffer the claim demands `Ok(min(2×N, 10)) = Ok 4`, but the code drains
one byte per word and returns `Ok 2`. -/
theorem claim_c2_counterexample :
    read_raw 1 [0, 0] (List.replicate 10 0)
      = some (Except.ok 2, [], List.replicate 10 0) ∧ (2 : Nat) ≠ min (2 * 2) 10 := by
  exact ⟨rfl, by decide⟩

/-- C2 (amended): each buffered word yields one byte, not two.  With
`N` buffered words, no further arrivals and `m = min(N, buf.len())`,
`read_raw` returns `Ok m` whenever `m` is even or the buffer fills
(`buf.len() ≤ N`); in the remaining case (`N` odd and `N < buf.len()`)
it does not return. -/
theorem claim_c2 (fifo buf : List Nat) (h2 : 2 ≤ buf.length)
    (h : min fifo.length buf.length % 2 = 0 ∨ buf.length ≤ fifo.length) :
    read_raw 1 fifo buf
      = some (Except.ok (min fifo.length buf.length),
              fifo.drop (min fifo.length buf.length),
              (fifo.take (min fifo.length buf.length)).map rxByte
                ++ buf.drop (min fifo.length buf.length)) := by
  rw [read_raw_char 0 fifo buf h2, if_pos h]

/-- C2 witness: instantiating at two buffered words and a two-byte
buffer. -/
theorem claim_c2_witness :
    read_raw 1 [0, 0] [5, 6]
      = some (Except.ok (min (List.length [0, 0]) (List.length [5, 6])),
              List.drop (min (List.length [0, 0]) (List.length [5, 6])) [0, 0],
              (List.take (min (List.length [0, 0]) (List.length [5, 6])) [0, 0]).map rxByte
                ++ List.drop (min (List.length [0, 0]) (List.length [5, 6])) [5, 6]) :=
  claim_c2 [0, 0] [5, 6] (by decide) (Or.inl (by decide))

/-- C4 (as stated, refuted): with a single buffered word and a two-byte
buffer, `read_raw` never returns however many outer-loop iterations it
is given — it spins waiting for a second word. -/
theorem claim_c4_counterexample : ¬ ∃ fuel, (read_raw fuel [0] [5, 6]).isSome := by
  rintro ⟨fuel, hf⟩
  cases fuel with
  | zero => simp [read_raw, read_loop] at hf
  | succ k =>
    rw [read_raw_char k [0] [5, 6] (by decide)] at hf
    rw [if_neg (by decide)] at hf
    simp at hf

/-- C4 (amended): `read_raw` terminates after draining at most the
queued words provided the FIFO holds an even number of words or at
least `buf.len()` words; when it holds an odd number fewer than
`buf.len()`, the call spins waiting for one more word. -/
theorem claim_c4 (fifo buf : List Nat) (h2 : 2 ≤ buf.length)
    (h : fifo.length % 2 = 0 ∨ buf.length ≤ fifo.length) :
    (read_raw 1 fifo buf).isSome := by
  have hcond : min fifo.length buf.length % 2 = 0 ∨ buf.length ≤ fifo.length := by
    rcases h with he | hb
    · by_cases hN : buf.length ≤ fifo.length
      · exact Or.inr hN
      · refine Or.inl ?_
        rw [Nat.min_eq_left (by omega)]
        exact he
    · exact Or.inr hb
  rw [read_raw_char 0 fifo buf h2, if_pos hcond]
  rfl

/-- C4 witness: instantiating at two buffered words and a three-byte
buffer. -/
theorem claim_c4_witness : (read_raw 1 [0, 0] [5, 6, 7]).isSome :=
  claim_c4 [0, 0] [5, 6, 7] (by decide) (Or.inl (by decide))

/-- C3 (as stated, refuted): a three-byte buffer filled by three
buffered words makes `read_raw` return `Ok 3`, an odd count. -/
theorem claim_c3_counterexample :
    read_raw 1 [0, 0, 0] [1, 1, 1] = some (Except.ok 3, [], [0, 0, 0]) ∧ (3 : Nat) % 2 = 1 := by
  exact ⟨rfl, by decide⟩

/-- C3 (amended): whenever `read_raw` returns `Ok n`, the count `n` is
even or equals `buf.len()` exactly (an odd count occurs only when a
buffer of odd length fills completely). -/
theorem claim_c3 (fuel : Nat) (fifo buf : List Nat) (n : Nat) (fifo2 buf2 : List Nat)
    (h : read_raw fuel fifo buf = some (Except.ok n, fifo2, buf2)) :
    n % 2 = 0 ∨ n = buf.length := by
  by_cases hsmall : buf.length < 2
  · rw [read_raw, if_pos hsmall] at h
    simp at h
  · have h2 : 2 ≤ buf.length := by omega
    cases fuel with
    | zero =>
      rw [read_raw, if_neg (by omega)] at h
      simp [read_loop] at h
    | succ k =>
      rw [read_raw_char k fifo buf h2] at h
      by_cases hcond : min fifo.length buf.length % 2 = 0 ∨ buf.length ≤ fifo.length
      · rw [if_pos hcond] at h
        simp only [Option.some_inj, Prod.mk.injEq, Except.ok.injEq] at h
        obtain ⟨hn, -, -⟩ := h
        rcases hcond with he | hb
        · exact Or.inl (hn ▸ he)
        · refine Or.inr ?_
          rw [← hn, Nat.min_eq_right hb]
      · rw [if_neg hcond] at h
        simp at h

/-- C3 witness: instantiating at two buffered words and a two-byte
buffer, where the returned count 2 is even. -/
theorem claim_c3_witness : (2 : Nat) % 2 = 0 ∨ 2 = List.length [5, 6] :=
  claim_c3 1 [0, 0] [5, 6] 2 [] [0, 0] rfl

/-- C10: whenever `read_raw` returns `Ok n`, then `n ≤ buf.len()`, the
first `n` buffer bytes are, front-to-back, the top 8 bits of the first
`n` FIFO words (which are exactly the words drained), and the bytes
from position `n` on are unchanged. -/
theorem claim_c10 (fuel : Nat) (fifo buf : List Nat) (n : Nat) (fifo2 buf2 : List Nat)
    (h : read_raw fuel fifo buf = some (Except.ok n, fifo2, buf2)) :
    n ≤ buf.length ∧ buf2.take n = (fifo.take n).map rxByte ∧
    buf2.drop n = buf.drop n ∧ fifo2 = fifo.drop n := by
  by_cases hsmall : buf.length < 2
  · rw [read_raw, if_pos hsmall] at h
    simp at h
  · have h2 : 2 ≤ buf.length := by omega
    cases fuel with
    | zero =>
      rw [read_raw, if_neg (by omega)] at h
      simp [read_loop] at h
    | succ k =>
      rw [read_raw_char k fifo buf h2] at h
      by_cases hcond : min fifo.length buf.length % 2 = 0 ∨ buf.length ≤ fifo.length
      · rw [if_pos hcond] at h
        simp only [Option.some_inj, Prod.mk.injEq, Except.ok.injEq] at h
        obtain ⟨hn, hf2, hb2⟩ := h
        rw [hn] at hf2 hb2
        have hmb : n ≤ buf.length := by rw [← hn]; exact Nat.min_le_right _ _
        have hmf : n ≤ fifo.length := by rw [← hn]; exact Nat.min_le_left _ _
        have hmaplen : ((fifo.take n).map rxByte).length = n := by
          simp [Nat.min_eq_left hmf]
        refine ⟨hmb, ?_, ?_, hf2.symm⟩
        · rw [← hb2, List.take_append_eq_append_take, hmaplen, Nat.sub_self,
              List.take_zero, List.append_nil, List.take_of_length_le (le_of_eq hmaplen)]
        · rw [← hb2, List.drop_append_eq_append_drop, hmaplen, Nat.sub_self,
              List.drop_zero, List.drop_eq_nil_of_le (le_of_eq hmaplen), List.nil_append]
      · rw [if_neg hcond] at h
        simp at h

/-- C10 witness: instantiating at two buffered words and a two-byte
buffer. -/
theorem claim_c10_witness :
    2 ≤ List.length [5, 6] ∧ List.take 2 [0, 0] = (List.take 2 [0, 0]).map rxByte ∧
    List.drop 2 [0, 0] = List.drop 2 [5, 6] ∧ ([] : List Nat) = List.drop 2 [0, 0] :=
  claim_c10 1 [0, 0] [5, 6] 2 [] [0, 0] rfl

/-- C6: for every valid (positive) baud and system frequency, the
constructors' clock divisor equals `system_freq / (8 × baud)` and is
strictly positive. -/
theorem claim_c6 (baud sysfreq : Nat) (hb : 0 < baud) (hs : 0 < sysfreq) :
    clock_divisor baud sysfreq = (sysfreq : ℚ) / (8 * (baud : ℚ)) ∧
    0 < clock_divisor baud sysfreq := by
  refine ⟨rfl, ?_⟩
  unfold clock_divisor
  apply div_pos
  · exact_mod_cast hs
  · have hbq : (0 : ℚ) < (baud : ℚ) := by exact_mod_cast hb
    positivity

/-- C6 witness: instantiating at 19200 baud and a 125 MHz system
clock. -/
theorem claim_c6_witness :
    clock_divisor 19200 125000000 = (125000000 : ℚ) / (8 * (19200 : ℚ)) ∧
    0 < clock_divisor 19200 125000000 :=
  claim_c6 19200 125000000 (by norm_num) (by norm_num)

/-- C7: the typestate impl blocks make illegal operations
inexpressible: `read_raw`/`write_raw` exist only on `Running` lanes and
`free` only on `Stopped` (configured) lanes. -/
theorem claim_c7 :
    rx_methods .running .readRaw = true ∧ rx_methods .stopped .readRaw = false ∧
    tx_methods .running .writeRaw = true ∧ tx_methods .stopped .writeRaw = false ∧
    rx_methods .stopped .free = true ∧ rx_methods .running .free = false ∧
    tx_methods .stopped .free = true ∧ tx_methods .running .free = false := by
  decide

end PioUart
